import Mathlib

/-!
Verification of the RayCasting renderer (src/RayCasting/src).

The development shallowly embeds the C++ source in Lean 4.

Conventions of the embedding:
* C++ `float` arithmetic is embedded as exact arithmetic, either over a
  generic linear ordered field (instantiated at `ℚ` for executable claims)
  or over `ℝ` where the source uses `sqrt`, `tan`, `acos`, `sin`, `atan2`.
* C++ `int`/`size_t` casts of floating values truncate toward zero; this is
  embedded by `truncate` below.  C++ integer division truncates toward zero
  and is embedded by `Int.tdiv`.
* `glm` vectors are embedded as (nested) products with the pointwise
  `Prod` arithmetic instances; `glm::ivec3`/`glm::ivec4` color values are
  `ℤ × ℤ × ℤ` / `ℤ × ℤ × ℤ × ℤ`.
* Fallible c++ code returning `std::optional` is embedded with `Option`;
  flat buffers indexed by `y * width + x` are embedded as total functions
  `ℕ → value` with a pointwise functional update.
* Loops are embedded as folds over explicit index ranges; the repository
  runs some loops in parallel over disjoint contiguous chunks of the index
  range (`executeInParallel`), which computes the same buffer contents as
  the sequential fold because distinct iterations write disjoint cells.
-/

namespace RayCasting

/-- Truncation toward zero, the semantics of C++ `static_cast<int>` /
`static_cast<int64_t>` / `static_cast<size_t>` on a nonnegative value. -/
def truncate {α : Type} [LinearOrderedField α] [FloorRing α] (x : α) : ℤ :=
  if x < 0 then ⌈x⌉ else ⌊x⌋

/-- 2-component vector (embeds `glm::vec2` / `ds::Vec2`). -/
abbrev Vec2 (α : Type) : Type := α × α

/-- 4-component vector (embeds `glm::vec4`, the pixel type of `media::Image`). -/
abbrev Vec4 (α : Type) : Type := α × α × α × α

/-- `ds::ColorRGB = glm::ivec3`. -/
abbrev ColorRGB : Type := ℤ × ℤ × ℤ

/-- `ds::ColorRGBA = glm::ivec4`. -/
abbrev ColorRGBA : Type := ℤ × ℤ × ℤ × ℤ

/-- `glm::dot` on 2-component vectors. -/
def dot {α : Type} [LinearOrderedField α] (a b : α × α) : α :=
  a.1 * b.1 + a.2 * b.2

variable {α : Type} [LinearOrderedField α] [FloorRing α]

/-- `camera::Camera` (camera.hpp): position, velocity, facing vector,
field of view, far plane distance, eye height. -/
structure Camera (α : Type) where
  position : α × α
  velocity : α × α
  front : α × α
  fov : α
  farPlane : α
  height : α

/-- `camera::friction` (camera.hpp): if `glm::length(velocity) > 0.01f`
halve the velocity componentwise, otherwise set it to exactly zero.
The source comparison `length(v) > 0.01` is embedded by the equivalent
squared comparison `dot v v > 0.01^2 = 1/10000` (both sides of the source
comparison are nonnegative, so squaring is faithful); this keeps the
definition free of square roots and hence executable over `ℚ`. -/
def friction (c : Camera α) : Camera α :=
  if (1 / 10000 : α) < dot c.velocity c.velocity then
    { c with velocity := (c.velocity.1 / 2, c.velocity.2 / 2) }
  else
    { c with velocity := (0, 0) }

/-- `getMipmapLevel` (rayCasting.cpp lines 193-213): staircase on the
distance with thresholds 10 / 20 / 40 / 80, level 0 past the last one. -/
def getMipmapLevel (d : α) : ℕ :=
  if d < 10 then 0
  else if d < 20 then 1
  else if d < 40 then 2
  else if d < 80 then 3
  else 0

/-- `media::Image` (media.hpp): row-major pixel grid, pixels are
`glm::vec4` float RGBA. -/
structure Image (α : Type) where
  data : List (Vec4 α)
  width : ℕ
  height : ℕ

/-- Conversion `glm::vec4 → ds::ColorRGB (glm::ivec3)` applied by the
assignment in `getTexturePixelRepeated`: keep the first three components,
truncating each float toward zero. -/
def toColorRGB (p : Vec4 α) : ColorRGB :=
  (truncate p.1, truncate p.2.1, truncate p.2.2.1)

/-- The flat data index `(y % height) * width + (x % width)` used by
`getTexturePixelRepeated` (rayCasting.cpp line 148). -/
def texelIndex (t : Image α) (x y : ℕ) : ℕ :=
  (y % t.height) * t.width + (x % t.width)

/-- `getTexturePixelRepeated` (rayCasting.cpp lines 146-149): read the texel
at the wrapped index.  Every read of `texture.data` performed by
`sampleFromTexture` goes through this function. -/
def getTexturePixelRepeated (t : Image α) (x y : ℕ) : ColorRGB :=
  toColorRGB (t.data.getD (texelIndex t x y) (0, 0, 0, 0))

/-- The UV wrap of `sampleFromTexture` (rayCasting.cpp lines 128-138):
`uvx = uv.x - (int64_t)uv.x`, plus 1 if that is negative. -/
def wrapCoord (x : α) : α :=
  let f := x - ((truncate x : ℤ) : α)
  if f < 0 then f + 1 else f

/-- `sampleFromTexture` (rayCasting.cpp lines 126-191).  Wraps the UV
coordinates, then either does a nearest-neighbor lookup
(`useFiltering == false`) or the integer-weighted bilinear blend of the 4
neighboring texels with the final truncating division by `255 * 255`. -/
def sampleFromTexture (t : Image α) (uv : α × α) (useFiltering : Bool) :
    ColorRGBA :=
  let uvx := wrapCoord uv.1
  let uvy := wrapCoord uv.2
  let tx : α := (t.width : α) * uvx
  let ty : α := (t.height : α) * uvy
  let txi : ℕ := (truncate tx).toNat
  let tyi : ℕ := (truncate ty).toNat
  if useFiltering = false then
    let c := getTexturePixelRepeated t txi tyi
    (c.1, c.2.1, c.2.2, 255)
  else
    let pa := getTexturePixelRepeated t txi tyi
    let pb := getTexturePixelRepeated t (txi + 1) tyi
    let pc := getTexturePixelRepeated t txi (tyi + 1)
    let pd := getTexturePixelRepeated t (txi + 1) (tyi + 1)
    let w1 : ℤ := truncate ((255 : α) * (tx - (txi : α)))
    let w2 : ℤ := 255 - w1
    let ab : ColorRGB :=
      (pb.1 * w1 + pa.1 * w2, pb.2.1 * w1 + pa.2.1 * w2,
        pb.2.2 * w1 + pa.2.2 * w2)
    let cd : ColorRGB :=
      (pd.1 * w1 + pc.1 * w2, pd.2.1 * w1 + pc.2.1 * w2,
        pd.2.2 * w1 + pc.2.2 * w2)
    let w3 : ℤ := truncate ((255 : α) * (ty - (tyi : α)))
    let w4 : ℤ := 255 - w3
    let abcd : ColorRGB :=
      (Int.tdiv (cd.1 * w3 + ab.1 * w4) (255 * 255),
        Int.tdiv (cd.2.1 * w3 + ab.2.1 * w4) (255 * 255),
        Int.tdiv (cd.2.2 * w3 + ab.2.2 * w4) (255 * 255))
    (abcd.1, abcd.2.1, abcd.2.2, 255)

/-- Componentwise sum of two `glm::vec4` pixels. -/
def addVec4 (a b : Vec4 α) : Vec4 α :=
  (a.1 + b.1, a.2.1 + b.2.1, a.2.2.1 + b.2.2.1, a.2.2.2 + b.2.2.2)

/-- Componentwise division of a `glm::vec4` pixel by 4. -/
def divVec4Four (a : Vec4 α) : Vec4 α :=
  (a.1 / 4, a.2.1 / 4, a.2.2.1 / 4, a.2.2.2 / 4)

/-- `rendering::minifyImage` (rendering.hpp lines 38-57): halve both
dimensions, each result pixel is the 2x2 box-filter average
`(data[2i][2j] + data[2i][2j+1] + data[2i+1][2j] + data[2i+1][2j+1]) / 4`
of the source, written in row-major order. -/
def minifyImage (img : Image α) : Image α :=
  let rw := img.width / 2
  let rh := img.height / 2
  { data :=
      (List.range rh).flatMap (fun i =>
        (List.range rw).map (fun j =>
          let gi := 2 * i
          let gj := 2 * j
          divVec4Four
            (addVec4
              (addVec4 (img.data.getD (gi * img.width + gj) (0, 0, 0, 0))
                (img.data.getD (gi * img.width + gj + 1) (0, 0, 0, 0)))
              (addVec4 (img.data.getD ((gi + 1) * img.width + gj) (0, 0, 0, 0))
                (img.data.getD ((gi + 1) * img.width + gj + 1) (0, 0, 0, 0))))))
    width := rw
    height := rh }

/-- `rendering::Texture` (rendering.hpp): the mipmap chain plus the level-0
dimensions. -/
structure Texture (α : Type) where
  mipmaps : List (Image α)
  width : ℕ
  height : ℕ

/-- `rendering::createTexture` (rendering.hpp lines 60-68): four mipmap
levels, each a 2x2 box-filter minification of the previous one. -/
def createTexture (img : Image α) : Texture α :=
  let m1 := img
  let m2 := minifyImage m1
  let m3 := minifyImage m2
  let m4 := minifyImage m3
  { mipmaps := [m1, m2, m3, m4], width := m1.width, height := m1.height }

/-! ## Geometry engine over `ℝ`

The geometric code of rayCasting.cpp uses `glm::normalize`, `glm::distance`
and the trigonometric functions, so it is embedded over the real numbers,
literally following the source expressions. -/

/-- `glm::length` of a 2-component vector. -/
noncomputable def glmLength (v : Vec2 ℝ) : ℝ := Real.sqrt (dot v v)

/-- `glm::normalize` of a 2-component vector: the vector divided by its
length componentwise. -/
noncomputable def normalize (v : Vec2 ℝ) : Vec2 ℝ :=
  (v.1 / glmLength v, v.2 / glmLength v)

/-- `glm::distance` of two points. -/
noncomputable def distance (a b : Vec2 ℝ) : ℝ := glmLength (b - a)

/-- The local `cross2D` lambda of `getIntersectionPoint`. -/
def cross2D (a b : Vec2 ℝ) : ℝ := a.1 * b.2 - a.2 * b.1

/-- Componentwise division of a vector by a scalar (`glm` `vec / float`). -/
noncomputable def vdiv (v : Vec2 ℝ) (k : ℝ) : Vec2 ℝ := (v.1 / k, v.2 / k)

/-- `Line` (line.hpp): a directed segment.  The source calls the second
endpoint `end`, a reserved word in Lean, so it is named `stop` here. -/
structure Line where
  start : Vec2 ℝ
  stop : Vec2 ℝ

/-- `wall::Wall` (wall.hpp): a segment, an (unused) height, an RGB color. -/
structure Wall where
  line : Line
  height : ℝ
  color : ColorRGB

/-- The `Orientation` enum of rayCasting.cpp. -/
inductive Orientation where
  | ClockWise
  | CounterClockWise
deriving DecidableEq

/-- `orientation` (rayCasting.cpp lines 52-57): sign test of
`(q.y - p.y) * (r.x - q.x) - (q.x - p.x) * (r.y - q.y)`, ties resolving to
`ClockWise` through the `>= 0` comparison. -/
noncomputable def orientation (p q r : Vec2 ℝ) : Orientation :=
  let value := (q.2 - p.2) * (r.1 - q.1) - (q.1 - p.1) * (r.2 - q.2)
  if 0 ≤ value then Orientation.ClockWise else Orientation.CounterClockWise

/-- `hasIntersection` (rayCasting.cpp lines 59-65): the straddling test. -/
noncomputable def hasIntersection (l1 l2 : Line) : Bool :=
  decide (orientation l1.start l1.stop l2.start ≠
      orientation l1.start l1.stop l2.stop) &&
  decide (orientation l2.start l2.stop l1.start ≠
      orientation l2.start l2.stop l1.stop)

/-- `getIntersectionPoint` (rayCasting.cpp lines 67-93): `none` when the
straddling test fails; otherwise normalize both directions, return `none`
when the magnitude of their 2D cross product is at most `0.001`, and
otherwise return `p + t * r` with `t = cross2D (q - p) (s / cross2D r s)`. -/
noncomputable def getIntersectionPoint (l1 l2 : Line) : Option (Vec2 ℝ) :=
  if hasIntersection l1 l2 = false then none
  else
    let p := l1.start
    let r := normalize (l1.stop - l1.start)
    let q := l2.start
    let s := normalize (l2.stop - l2.start)
    if (1 / 1000 : ℝ) < |cross2D r s| then
      let t := cross2D (q - p) (vdiv s (cross2D r s))
      some (p + t • r)
    else none

/-! ## Frame buffers and rendering context (rendering.hpp) -/

/-- `rendering::Context`: screen dimensions, the three flat frame buffers
(each indexed by `y * width + x`), and the two sampling toggles.  The
window/renderer/presentation handles of the source are external
collaborators and are not part of the embedding. -/
structure Context where
  width : ℕ
  height : ℕ
  screenBuffer : ℕ → ℕ
  stencilBuffer : ℕ → ℕ
  depthBuffer : ℕ → ℝ
  useMipmap : Bool
  useFiltering : Bool

/-- Pointwise update of a flat buffer. -/
def update {β : Type} (f : ℕ → β) (i : ℕ) (v : β) : ℕ → β :=
  fun j => if j = i then v else f j

/-- C++ conversion of an `int` color channel to `uint8_t`: reduce mod 256. -/
def toByte (x : ℤ) : ℕ := (x % 256).toNat

/-- The byte packing of `setSceenBufferPixel` (rendering.hpp lines 98-109):
the bytes `{a, b, g, r}` are stored in increasing memory order and read back
as one little-endian 32-bit word. -/
def packColor (c : ColorRGBA) : ℕ :=
  toByte c.2.2.2 + 256 * toByte c.2.2.1 + 65536 * toByte c.2.1 +
    16777216 * toByte c.1

/-- `rendering::setSceenBufferPixel` (the source spelling). -/
def setSceenBufferPixel (ctx : Context) (x y : ℕ) (color : ColorRGBA) :
    Context :=
  { ctx with
    screenBuffer := update ctx.screenBuffer (y * ctx.width + x)
      (packColor color) }

/-- `rendering::setStencilBufferPixel`. -/
def setStencilBufferPixel (ctx : Context) (x y : ℕ) (value : ℕ) : Context :=
  { ctx with
    stencilBuffer := update ctx.stencilBuffer (y * ctx.width + x) value }

/-- `rendering::setDepthBufferPixel`. -/
def setDepthBufferPixel (ctx : Context) (x y : ℕ) (value : ℝ) : Context :=
  { ctx with
    depthBuffer := update ctx.depthBuffer (y * ctx.width + x) value }

/-- `rendering::clearContext` (rendering.hpp lines 134-143): zero the screen
and stencil buffers, fill the depth buffer with `1.0f`. -/
def clearContext (ctx : Context) : Context :=
  { ctx with
    screenBuffer := fun _ => 0
    stencilBuffer := fun _ => 0
    depthBuffer := fun _ => 1 }

/-! ## Wall rasterizer (`renderWalls`, rayCasting.cpp lines 215-302) -/

/-- The integer range `[lo, hi)` of a C++ `for (int j = lo; j < hi; j++)`
loop, in iteration order. -/
def intRange (lo hi : ℤ) : List ℤ :=
  (List.range (hi - lo).toNat).map (fun k => lo + (k : ℤ))

/-- The per-column accumulator of `calculateWallZBuffer`: the cells
`zbuffer[i]`, `colorBuffer[i]` (a float `ds::Vec3`), `uvBuffer[i]`,
initialized to `1.0f`, `Vec3(0.0f)`, `0.0f`. -/
structure ColumnHit where
  z : ℝ
  color : ℝ × ℝ × ℝ
  uv : ℝ

/-- Conversion `ds::ColorRGB (ivec3) → ds::Vec3` (float). -/
def castColorToVec3 (c : ColorRGB) : ℝ × ℝ × ℝ :=
  ((c.1 : ℝ), (c.2.1 : ℝ), (c.2.2 : ℝ))

/-- The wall-loop body of `calculateWallZBuffer` (rayCasting.cpp lines
239-258): intersect the column ray with one wall and keep the hit when its
camera-plane-corrected normalized distance
`eyeDistance * dot(front, rayDirection) / farPlane` improves on the
accumulator. -/
noncomputable def wallStep (rayOrigin frontVector rayDirection : Vec2 ℝ)
    (farPlane : ℝ) (acc : ColumnHit) (w : Wall) : ColumnHit :=
  let rayLine : Line := ⟨rayOrigin, rayOrigin + farPlane • rayDirection⟩
  match getIntersectionPoint rayLine w.line with
  | none => acc
  | some intersectionPoint =>
    let eyeDistance := distance rayOrigin intersectionPoint
    let normalizedCameraPlaneDistance :=
      eyeDistance * dot frontVector rayDirection / farPlane
    if normalizedCameraPlaneDistance < acc.z then
      { z := normalizedCameraPlaneDistance
        color := castColorToVec3 w.color
        uv := distance intersectionPoint w.line.start }
    else acc

/-- The ray direction of screen column `i` (rayCasting.cpp lines 221-235):
offset the front vector along the right vector by
`rayVectorOffset * (i - numberOfRays / 2)` and normalize. -/
noncomputable def rayDirection (cam : Camera ℝ) (width height : ℕ) (i : ℕ) :
    Vec2 ℝ :=
  let frontVector := cam.front
  let rightVector : Vec2 ℝ := (frontVector.2, -frontVector.1)
  let projectionPlaneHeight := Real.tan (cam.fov / 2) * 2
  let projectionPlaneWidth := projectionPlaneHeight * ((width : ℝ) / (height : ℝ))
  let rayVectorOffset := projectionPlaneWidth / (width : ℝ)
  let amountToOffset :=
    rayVectorOffset * ((((i : ℤ) - ((width / 2 : ℕ) : ℤ)) : ℤ) : ℝ)
  normalize (frontVector - amountToOffset • rightVector)

/-- `calculateWallZBuffer` restricted to column `i`: the fold of `wallStep`
over the wall list (distinct columns use disjoint buffer cells, so the
per-column fold is the whole loop body for that column). -/
noncomputable def columnHit (cam : Camera ℝ) (level : List Wall)
    (width height : ℕ) (i : ℕ) : ColumnHit :=
  List.foldl
    (wallStep cam.position cam.front (rayDirection cam width height i)
      cam.farPlane)
    ⟨1, (0, 0, 0), 0⟩ level

/-- One iteration of the inner row loop of the wall `render` lambda
(rayCasting.cpp lines 285-295): sample the wall texture and write the
screen, stencil and depth buffers at `(pixelHorizontalPostion, h/2 - j)`. -/
noncomputable def writeWallPixel (cam : Camera ℝ) (texture : Image ℝ)
    (hit : ColumnHit) (pixelDistance projectionPlaneHeight : ℝ) (x : ℕ)
    (ctx : Context) (j : ℤ) : Context :=
  let uvY := cam.height +
    (j : ℝ) * (projectionPlaneHeight / (ctx.height : ℝ)) * pixelDistance
  let uv : Vec2 ℝ := (hit.uv, uvY)
  let sample := sampleFromTexture texture uv ctx.useFiltering
  let color : ℝ × ℝ × ℝ :=
    ((sample.1 : ℝ), (sample.2.1 : ℝ), (sample.2.2.1 : ℝ))
  let colorRGBA : ColorRGBA :=
    (truncate color.1, truncate color.2.1, truncate color.2.2,
      truncate (1 : ℝ))
  let y : ℕ := (((ctx.height / 2 : ℕ) : ℤ) - j).toNat
  let c1 := setSceenBufferPixel ctx x y colorRGBA
  let c2 := setStencilBufferPixel c1 x y 1
  setDepthBufferPixel c2 x y hit.z

/-- The wall `render` lambda for one column (rayCasting.cpp lines 264-298):
if the column hit something nearer than the far plane, project the wall top
and bottom to a clipped screen-row span and write every row in the span. -/
noncomputable def renderWallColumn (cam : Camera ℝ) (level : List Wall)
    (textures : List (Texture ℝ)) (ctx : Context) (i : ℕ) : Context :=
  let hit := columnHit cam level ctx.width ctx.height i
  let pixelDistance := hit.z * cam.farPlane
  if pixelDistance < cam.farPlane then
    let projectionPlaneHeight := Real.tan (cam.fov / 2) * 2
    let worlWallTop := 2 - cam.height
    let worlWallBottom := 0 - cam.height
    let viewWallTop := worlWallTop / pixelDistance
    let viewWallBottom := worlWallBottom / pixelDistance
    let screenWallTop : ℤ :=
      truncate (viewWallTop * (ctx.height : ℝ) / projectionPlaneHeight)
    let screenWallBottom : ℤ :=
      truncate (viewWallBottom * (ctx.height : ℝ) / projectionPlaneHeight)
    let pixelHorizontalPostion : ℕ := ctx.width - (i + 1)
    let mipMapLevel := getMipmapLevel pixelDistance
    let texture := (textures.getD 0 ⟨[], 0, 0⟩).mipmaps.getD
      (mipMapLevel * (if ctx.useMipmap then 1 else 0)) ⟨[], 0, 0⟩
    let lo : ℤ := max (Int.tdiv (-(ctx.height : ℤ)) 2) screenWallBottom
    let hi : ℤ := min (Int.tdiv ((ctx.height : ℕ) : ℤ) 2) screenWallTop
    List.foldl
      (writeWallPixel cam texture hit pixelDistance projectionPlaneHeight
        pixelHorizontalPostion)
      ctx (intRange (lo + 1) hi)
  else ctx

/-- `renderWalls` (rayCasting.cpp lines 215-302): one column per screen
column; the z/color/uv buffers are per-column and precomputed, so the two
source loops fuse into one fold over the columns. -/
noncomputable def renderWalls (ctx : Context) (cam : Camera ℝ)
    (level : List Wall) (textures : List (Texture ℝ)) : Context :=
  List.foldl (renderWallColumn cam level textures) ctx
    (List.range ctx.width)

/-! ## Floor/ceiling rasterizer (`renderFloorAndCeiling`, lines 362-407) -/

/-- The column body of the floor `render` lambda (rayCasting.cpp lines
386-402): skip the pixel when the stencil buffer marks it wall-occupied,
otherwise back-project to a world UV and write the screen buffer at
`(j, i + screenCenterY)`. -/
noncomputable def writeFloorPixel (cam : Camera ℝ) (floorTexture : Image ℝ)
    (intersectionDistance : ℝ) (i : ℕ) (ctx : Context) (j : ℕ) : Context :=
  let screenCenterX : ℕ := ctx.width / 2
  let screenCenterY : ℕ := ctx.height / 2
  if ctx.stencilBuffer ((i + screenCenterY) * ctx.width + j) = 1 then ctx
  else
    let right : Vec2 ℝ := (cam.front.2, -cam.front.1)
    let projectionPlaneHeight := Real.tan (cam.fov / 2)
    let projectionPlaneWidth :=
      projectionPlaneHeight * ((ctx.width : ℝ) / (ctx.height : ℝ))
    let uvFrontFactor := intersectionDistance
    let uvRightFactor := (((j : ℤ) - (screenCenterX : ℤ) : ℤ) : ℝ) *
      (projectionPlaneWidth / ((ctx.width / 2 : ℕ) : ℝ)) *
      intersectionDistance
    let uv := cam.position + uvFrontFactor • cam.front +
      uvRightFactor • right
    let color := sampleFromTexture floorTexture uv ctx.useFiltering
    setSceenBufferPixel ctx j (i + screenCenterY) color

/-- One ray row of `renderFloorAndCeiling` (rayCasting.cpp lines 373-404):
derive the floor intersection distance of the row from the downward ray
angle, select the floor texture mipmap, and run the column loop. -/
noncomputable def floorRow (cam : Camera ℝ) (textures : List (Texture ℝ))
    (ctx : Context) (i : ℕ) : Context :=
  let numberOfRays : ℕ := ctx.height / 2
  let projectionPlaneHeight := Real.tan (cam.fov / 2)
  let rayOffset := projectionPlaneHeight / (numberOfRays : ℝ)
  let ray := normalize ((1 : ℝ), -((i : ℝ) * rayOffset))
  let downVec : Vec2 ℝ := (0, -1)
  let angle := Real.arccos (dot downVec ray)
  let intersectionDistance := Real.tan angle * cam.height
  let mipMapLevel := getMipmapLevel intersectionDistance
  let floorTexture := (textures.getD 1 ⟨[], 0, 0⟩).mipmaps.getD
    (mipMapLevel * (if ctx.useMipmap then 1 else 0)) ⟨[], 0, 0⟩
  List.foldl (writeFloorPixel cam floorTexture intersectionDistance i) ctx
    (List.range ctx.width)

/-- `renderFloorAndCeiling` (rayCasting.cpp lines 362-407): one fold over
the `height / 2` ray rows. -/
noncomputable def renderFloorAndCeiling (ctx : Context) (cam : Camera ℝ)
    (textures : List (Texture ℝ)) : Context :=
  List.foldl (floorRow cam textures) ctx (List.range (ctx.height / 2))

/-! ## Sprite rasterizer (`renderSprites`, rayCasting.cpp lines 305-359) -/

/-- `rendering::Sprite` (rendering.hpp). -/
structure Sprite where
  texture : Texture ℝ
  position : Vec2 ℝ
  size : ℝ
  height : ℝ

/-- The pixel body of the sprite loops (rayCasting.cpp lines 341-356):
depth-test against the sprite's normalized camera-plane distance, sample
the base mipmap nearest-neighbor, skip the pure-cyan color key, otherwise
write screen and depth. -/
noncomputable def writeSpritePixel (cam : Camera ℝ) (sprite : Sprite)
    (spriteCameraPlaneDistance spriteWidth spriteHeight : ℝ)
    (spriteScreenLeft spriteScreenTop : ℤ) (i : ℤ) (ctx : Context)
    (j : ℤ) : Context :=
  if spriteCameraPlaneDistance / cam.farPlane <
      ctx.depthBuffer ((i * (ctx.width : ℤ) + j).toNat) then
    let uv : Vec2 ℝ :=
      (((j - spriteScreenLeft : ℤ) : ℝ) / spriteWidth,
        -(((i - spriteScreenTop : ℤ) : ℝ) / spriteHeight))
    let color := sampleFromTexture (sprite.texture.mipmaps.getD 0 ⟨[], 0, 0⟩)
      uv false
    if color = ((0 : ℤ), (255 : ℤ), (255 : ℤ), (255 : ℤ)) then ctx
    else
      let c1 := setSceenBufferPixel ctx j.toNat i.toNat color
      setDepthBufferPixel c1 j.toNat i.toNat
        (spriteCameraPlaneDistance / cam.farPlane)
  else ctx

/-- One sprite of `renderSprites` (rayCasting.cpp lines 313-358): cull
sprites behind the camera plane, compute the clipped screen rectangle of
the billboard, and run the row/column loops. -/
noncomputable def renderSprite (cam : Camera ℝ) (ctx : Context)
    (sprite : Sprite) : Context :=
  let screenCenterX : ℕ := ctx.width / 2
  let screenCenterY : ℕ := ctx.height / 2
  let aspectRatio := (ctx.width : ℝ) / (ctx.height : ℝ)
  let cameraRight : Vec2 ℝ := (cam.front.2, -cam.front.1)
  let spriteCameraPlaneDistance := dot (sprite.position - cam.position) cam.front
  if spriteCameraPlaneDistance ≤ 0 then ctx
  else
    let spriteSize := sprite.size /
      (spriteCameraPlaneDistance * Real.tan (cam.fov / 2))
    let spriteWidth := spriteSize * (ctx.height : ℝ)
    let spriteHeight := spriteSize * (ctx.height : ℝ)
    let fc := cam.position + spriteCameraPlaneDistance • cam.front
    let fcSpriteVector := sprite.position - fc
    let distanceFc := dot fcSpriteVector cameraRight
    let distanceFcScreen := distanceFc / spriteCameraPlaneDistance
    let spriteScreenCenterX : ℤ := truncate
      (distanceFcScreen * (screenCenterX : ℝ) /
          (Real.tan (cam.fov / 2) * aspectRatio) + (screenCenterX : ℝ))
    let spriteScreenCenterY : ℤ := truncate
      (((cam.height + sprite.height + 0) / spriteCameraPlaneDistance) *
          (screenCenterY : ℝ) / Real.tan (cam.fov / 2) + (screenCenterY : ℝ))
    let spriteScreenLeft : ℤ :=
      truncate ((spriteScreenCenterX : ℝ) - spriteWidth / 2)
    let spriteScreenRight : ℤ :=
      truncate ((spriteScreenCenterX : ℝ) + spriteWidth / 2)
    let spriteScreenTop : ℤ :=
      truncate ((spriteScreenCenterY : ℝ) - spriteHeight / 2)
    let spriteScreenBottom : ℤ :=
      truncate ((spriteScreenCenterY : ℝ) + spriteHeight / 2)
    List.foldl
      (fun c i =>
        List.foldl
          (writeSpritePixel cam sprite spriteCameraPlaneDistance spriteWidth
            spriteHeight spriteScreenLeft spriteScreenTop i)
          c
          (intRange (max spriteScreenLeft 0)
            (min spriteScreenRight ((ctx.width : ℕ) : ℤ))))
      ctx
      (intRange (max spriteScreenTop 0)
        (min spriteScreenBottom ((ctx.height : ℕ) : ℤ)))

/-- `renderSprites` (rayCasting.cpp lines 305-359): fold over the sprite
list in iteration order. -/
noncomputable def renderSprites (ctx : Context) (cam : Camera ℝ)
    (sprites : List Sprite) : Context :=
  List.foldl (renderSprite cam) ctx sprites

/-! ## Concrete objects used by witnesses and counterexamples -/

/-- A 1x1 image holding the single integer-valued pixel `(1, 2, 3, 1)`. -/
def constImage : Image ℚ := ⟨[((1 : ℚ), 2, 3, 1)], 1, 1⟩

/-- A 64x64 image all of whose pixels are `(1, 2, 3, 4)`. -/
def constImage64 : Image ℚ := ⟨List.replicate 4096 ((1 : ℚ), 2, 3, 4), 64, 64⟩

/-- A camera state with unit velocity `(1, 0)` (used for the friction
trajectory). -/
def cameraQ : Camera ℚ := ⟨(0, 0), (1, 0), (0, 1), 0, 100, 1⟩

/-- The default camera of camera.hpp over `ℝ`: position origin, at rest,
facing `(0, 1)`, 90 degree field of view, far plane 100, eye height 1. -/
noncomputable def cameraR : Camera ℝ :=
  ⟨(0, 0), (0, 0), (0, 1), Real.pi / 2, 100, 1⟩

/-- A wall perpendicular to `cameraR`'s forward axis at Euclidean
distance 5, straddling the axis. -/
def wallR : Wall := ⟨⟨(-1, 5), (1, 5)⟩, 1, (204, 25, 0)⟩

/-- A tiny 4x4 rendering context in its initial (cleared) buffer state. -/
noncomputable def contextR : Context :=
  ⟨4, 4, fun _ => 0, fun _ => 0, fun _ => 1, true, true⟩

/-- A 4x4 context whose stencil buffer marks every pixel wall-occupied. -/
noncomputable def contextStencil : Context :=
  ⟨4, 4, fun _ => 0, fun _ => 1, fun _ => 1, true, true⟩

/-- The camera-right vector `(front.y, -front.x)` used throughout
rayCasting.cpp. -/
def rightVec (f : Vec2 ℝ) : Vec2 ℝ := (f.2, -f.1)

/-! ## Theorems -/

/-- Claim C2 counterexample: the source thresholds are 10/20/40/80, so
`getMipmapLevel 24.9 = 2` (not 0) and `getMipmapLevel 25.0 = 2` (not 1). -/
theorem getMipmapLevel_claimed_boundary_fails :
    getMipmapLevel ((249 : ℚ) / 10) = 2 ∧ getMipmapLevel ((25 : ℚ)) = 2 ∧
      getMipmapLevel ((249 : ℚ) / 10) ≠ 0 := by
  refine ⟨?_, ?_, ?_⟩ <;> norm_num [getMipmapLevel]

/-- Claim C2 (amended): `getMipmapLevel` is a step function of the distance
with lower-inclusive boundaries per its `< threshold` comparisons; at the
first source threshold `getMipmapLevel 9.9 = 0` and `getMipmapLevel 10 = 1`,
and every distance from the last threshold (80) on selects level 0. -/
theorem getMipmapLevel_step :
    getMipmapLevel ((99 : ℚ) / 10) = 0 ∧ getMipmapLevel ((10 : ℚ)) = 1 ∧
      ∀ d : ℚ, 80 ≤ d → getMipmapLevel d = 0 := by
  refine ⟨by norm_num [getMipmapLevel], by norm_num [getMipmapLevel], ?_⟩
  intro d hd
  unfold getMipmapLevel
  rw [if_neg (by linarith), if_neg (by linarith), if_neg (by linarith),
    if_neg (by linarith)]

/-- Witness for the amended claim C2 at distance 100. -/
theorem getMipmapLevel_step_witness : getMipmapLevel ((100 : ℚ)) = 0 :=
  getMipmapLevel_step.2.2 100 (by norm_num)

/-- Unfolding lemma for a single `friction` application. -/
theorem friction_apply (c : Camera ℚ) :
    friction c =
      if (1 / 10000 : ℚ) < dot c.velocity c.velocity then
        { c with velocity := (c.velocity.1 / 2, c.velocity.2 / 2) }
      else { c with velocity := (0, 0) } := rfl

/-- Claim C5: one `friction` application either halves the velocity or sets
it to exactly `(0, 0)`; starting from squared magnitude 1 the velocity is
scaled by `2⁻ᵏ` for the first seven halvings (magnitudes 1, 1/2, ...,
1/128, the last being the first below 0.01) and from the eighth
application on it is exactly `(0, 0)`. -/
theorem friction_halving_decay :
    (∀ c : Camera ℚ,
        friction c =
          { c with velocity := (c.velocity.1 / 2, c.velocity.2 / 2) } ∨
        friction c = { c with velocity := (0, 0) }) ∧
      ∀ c : Camera ℚ, dot c.velocity c.velocity = 1 →
        (∀ k : ℕ, k ≤ 7 →
            (friction^[k] c).velocity =
              (((2 : ℚ) ^ k)⁻¹ * c.velocity.1,
                ((2 : ℚ) ^ k)⁻¹ * c.velocity.2)) ∧
          ∀ m : ℕ, 8 ≤ m → (friction^[m] c).velocity = (0, 0) := by
  constructor
  · intro c
    by_cases h : (1 / 10000 : ℚ) < dot c.velocity c.velocity
    · left
      rw [friction_apply, if_pos h]
    · right
      rw [friction_apply, if_neg h]
  intro c hc
  have hvel : ∀ k : ℕ, k ≤ 7 →
      (friction^[k] c).velocity =
        (((2 : ℚ) ^ k)⁻¹ * c.velocity.1, ((2 : ℚ) ^ k)⁻¹ * c.velocity.2) := by
    intro k
    induction k with
    | zero => intro _; simp
    | succ n ih =>
      intro hk
      have ihn := ih (by omega)
      rw [Function.iterate_succ_apply']
      have hdot : dot (friction^[n] c).velocity (friction^[n] c).velocity =
          ((2 : ℚ) ^ n)⁻¹ * ((2 : ℚ) ^ n)⁻¹ := by
        have : dot (friction^[n] c).velocity (friction^[n] c).velocity =
            ((2 : ℚ) ^ n)⁻¹ * ((2 : ℚ) ^ n)⁻¹ *
              dot c.velocity c.velocity := by
          rw [ihn]
          simp only [dot]
          ring
        rw [this, hc, mul_one]
      have hpow : (2 : ℚ) ^ n ≤ 64 := by
        calc (2 : ℚ) ^ n ≤ 2 ^ 6 := by
              apply pow_le_pow_right₀ (by norm_num) (by omega)
          _ = 64 := by norm_num
      have hpos : (0 : ℚ) < (2 : ℚ) ^ n := by positivity
      have hinv : (64 : ℚ)⁻¹ ≤ ((2 : ℚ) ^ n)⁻¹ := by
        apply inv_anti₀ (by norm_num) hpow
      have hcond : (1 / 10000 : ℚ) <
          dot (friction^[n] c).velocity (friction^[n] c).velocity := by
        rw [hdot]
        nlinarith [mul_le_mul hinv hinv (by norm_num) (by positivity)]
      rw [friction_apply, if_pos hcond]
      simp only [ihn, Prod.mk.injEq]
      refine ⟨?_, ?_⟩ <;> (rw [pow_succ, mul_inv]; ring)
  refine ⟨hvel, ?_⟩
  have h8 : (friction^[8] c).velocity = (0, 0) := by
    have h7 := hvel 7 (by omega)
    rw [show (8 : ℕ) = 7 + 1 from rfl, Function.iterate_succ_apply']
    have hdot : dot (friction^[7] c).velocity (friction^[7] c).velocity =
        (16384 : ℚ)⁻¹ := by
      have : dot (friction^[7] c).velocity (friction^[7] c).velocity =
          ((2 : ℚ) ^ 7)⁻¹ * ((2 : ℚ) ^ 7)⁻¹ * dot c.velocity c.velocity := by
        rw [h7]
        simp only [dot]
        ring
      rw [this, hc, mul_one]
      norm_num
    rw [friction_apply, if_neg (by rw [hdot]; norm_num)]
  intro m hm
  induction m, hm using Nat.le_induction with
  | base => exact h8
  | succ n hn ihm =>
    rw [Function.iterate_succ_apply']
    rw [friction_apply, if_neg (by rw [ihm]; norm_num [dot])]

/-- Witness for claim C5: from velocity `(1, 0)` the seventh friction
application yields `(1/128, 0)` and the ninth yields exactly `(0, 0)`. -/
theorem friction_halving_decay_witness :
    (friction^[7] cameraQ).velocity = (1 / 128, 0) ∧
      (friction^[9] cameraQ).velocity = (0, 0) := by
  have h := friction_halving_decay.2 cameraQ (by norm_num [dot, cameraQ])
  constructor
  · have h7 := h.1 7 (by omega)
    rw [h7]
    norm_num [cameraQ]
  · exact h.2 9 (by omega)

/-- Two UV coordinates with the same wrap give the same sample (the sampled
texel indices are functions of the wrapped coordinates only). -/
theorem sampleFromTexture_wrap_congr (t : Image ℚ) (uv1 uv2 : ℚ × ℚ)
    (b : Bool) (h1 : wrapCoord uv1.1 = wrapCoord uv2.1)
    (h2 : wrapCoord uv1.2 = wrapCoord uv2.2) :
    sampleFromTexture t uv1 b = sampleFromTexture t uv2 b := by
  simp only [sampleFromTexture, h1, h2]

/-- Claim C6: `sampleFromTexture` wraps UVs by true modulo, so nearest
sampling at `(1.5, -0.25)` equals nearest sampling at `(0.5, 0.75)`, for
every texture. -/
theorem sampleFromTexture_wraparound (t : Image ℚ) :
    sampleFromTexture t ((3 : ℚ) / 2, -(1 : ℚ) / 4) false =
      sampleFromTexture t ((1 : ℚ) / 2, (3 : ℚ) / 4) false := by
  apply sampleFromTexture_wrap_congr
  · show wrapCoord ((3 : ℚ) / 2) = wrapCoord ((1 : ℚ) / 2)
    have ht1 : truncate ((3 : ℚ) / 2) = 1 := by
      unfold truncate
      rw [if_neg (by norm_num)]
      norm_num
    have ht2 : truncate ((1 : ℚ) / 2) = 0 := by
      unfold truncate
      rw [if_neg (by norm_num)]
      norm_num
    unfold wrapCoord
    rw [ht1, ht2]
    norm_num
  · show wrapCoord (-(1 : ℚ) / 4) = wrapCoord ((3 : ℚ) / 4)
    have ht1 : truncate (-(1 : ℚ) / 4) = 0 := by
      unfold truncate
      rw [if_pos (by norm_num)]
      norm_num
    have ht2 : truncate ((3 : ℚ) / 4) = 0 := by
      unfold truncate
      rw [if_neg (by norm_num)]
      norm_num
    unfold wrapCoord
    rw [ht1, ht2]
    norm_num

/-- Claim C8: for a texture with positive dimensions and the invariant data
size `width * height`, the flat index `(y % height) * width + (x % width)`
through which `sampleFromTexture` (both modes) performs every read of
`texture.data` is always within bounds. -/
theorem texelIndex_in_bounds (t : Image ℚ) (hw : 0 < t.width)
    (hh : 0 < t.height) (hlen : t.data.length = t.width * t.height) :
    ∀ x y : ℕ, texelIndex t x y < t.data.length := by
  intro x y
  rw [hlen]
  unfold texelIndex
  have h1 : y % t.height < t.height := Nat.mod_lt y hh
  have h2 : x % t.width < t.width := Nat.mod_lt x hw
  have h3 : (y % t.height) * t.width + x % t.width <
      (y % t.height + 1) * t.width := by
    rw [add_one_mul]
    omega
  have h4 : (y % t.height + 1) * t.width ≤ t.height * t.width :=
    Nat.mul_le_mul_right _ (by omega)
  calc (y % t.height) * t.width + x % t.width
      < (y % t.height + 1) * t.width := h3
    _ ≤ t.height * t.width := h4
    _ = t.width * t.height := Nat.mul_comm _ _

/-- Witness for claim C8 on the 1x1 image at the out-of-range texel
coordinates `(5, 7)`. -/
theorem texelIndex_in_bounds_witness :
    texelIndex constImage 5 7 < constImage.data.length :=
  texelIndex_in_bounds constImage (by norm_num [constImage])
    (by norm_num [constImage]) (by norm_num [constImage]) 5 7

/-- Claim C10: on a texture whose every texel reads back as the single
integer color `c`, the 8-bit fixed-point bilinear filter is exact: the
weights satisfy `w1 + w2 = 255` and `w3 + w4 = 255`, the blend sums to
`c * 255 * 255`, the truncating division is exact, and the sample is
`(c.r, c.g, c.b, 255)` for every UV. -/
theorem sampleFromTexture_const_fixed_point (t : Image ℚ) (c : ColorRGB)
    (hconst : ∀ x y : ℕ, getTexturePixelRepeated t x y = c) (uv : ℚ × ℚ) :
    sampleFromTexture t uv true = (c.1, c.2.1, c.2.2, 255) := by
  have key : ∀ z a b : ℤ,
      Int.tdiv ((z * a + z * (255 - a)) * b +
        (z * a + z * (255 - a)) * (255 - b)) (255 * 255) = z := by
    intro z a b
    have h : (z * a + z * (255 - a)) * b +
        (z * a + z * (255 - a)) * (255 - b) = (255 * 255) * z := by
      ring
    rw [h, Int.mul_tdiv_cancel_left z (by norm_num)]
  simp only [sampleFromTexture, hconst]
  simp only [Bool.true_eq_false, if_false, Prod.mk.injEq]
  exact ⟨key _ _ _, key _ _ _, key _ _ _, trivial⟩

/-- Witness for claim C10 on the 1x1 integer-colored image at the
out-of-range UV `(7/3, -1/5)`. -/
theorem sampleFromTexture_const_fixed_point_witness :
    sampleFromTexture constImage ((7 : ℚ) / 3, -(1 : ℚ) / 5) true =
      (1, 2, 3, 255) := by
  apply sampleFromTexture_const_fixed_point constImage (1, 2, 3)
  intro x y
  norm_num [getTexturePixelRepeated, texelIndex, toColorRGB, truncate,
    constImage, Nat.mod_one]

/-- `getD` on a constant list returns the constant at in-bounds indices. -/
theorem getD_of_const {c d : Vec4 ℚ} {l : List (Vec4 ℚ)}
    (hc : ∀ p ∈ l, p = c) {n : ℕ} (hn : n < l.length) : l.getD n d = c := by
  rw [List.getD_eq_getElem l d hn]
  exact hc _ (List.getElem_mem hn)

/-- Row-major flat index bound. -/
theorem flatIndex_lt {W H i j : ℕ} (hi : i < H) (hj : j < W) :
    i * W + j < W * H := by
  have h3 : i * W + j < (i + 1) * W := by
    rw [add_one_mul]
    omega
  have h4 : (i + 1) * W ≤ H * W := Nat.mul_le_mul_right _ (by omega)
  calc i * W + j < (i + 1) * W := h3
    _ ≤ H * W := h4
    _ = W * H := Nat.mul_comm _ _

/-- `minifyImage` halves the width. -/
theorem minifyImage_width (img : Image ℚ) :
    (minifyImage img).width = img.width / 2 := rfl

/-- `minifyImage` halves the height. -/
theorem minifyImage_height (img : Image ℚ) :
    (minifyImage img).height = img.height / 2 := rfl

/-- The minified image again holds `width * height` pixels. -/
theorem minifyImage_data_length (img : Image ℚ) :
    (minifyImage img).data.length = (img.width / 2) * (img.height / 2) := by
  simp only [minifyImage]
  rw [List.length_flatMap]
  simp [Function.comp_def, List.length_map, List.length_range,
    List.map_const', List.sum_replicate, smul_eq_mul, Nat.mul_comm]

/-- The 2x2 box filter of a constant image is constant with the same
color (each average is `(c + c + c + c) / 4 = c`). -/
theorem minifyImage_const (img : Image ℚ) (c : Vec4 ℚ)
    (hlen : img.data.length = img.width * img.height)
    (hc : ∀ p ∈ img.data, p = c) :
    ∀ p ∈ (minifyImage img).data, p = c := by
  intro p hp
  simp only [minifyImage, List.mem_flatMap, List.mem_map,
    List.mem_range] at hp
  obtain ⟨i, hi, j, hj, rfl⟩ := hp
  have hhle : 2 * (img.height / 2) ≤ img.height := by omega
  have hwle : 2 * (img.width / 2) ≤ img.width := by omega
  have hi1 : 2 * i < img.height := by omega
  have hi2 : 2 * i + 1 < img.height := by omega
  have hj1 : 2 * j < img.width := by omega
  have hj2 : 2 * j + 1 < img.width := by omega
  have e1 : (2 * i) * img.width + 2 * j < img.data.length := by
    rw [hlen]
    exact flatIndex_lt hi1 hj1
  have e2 : (2 * i) * img.width + 2 * j + 1 < img.data.length := by
    rw [hlen]
    have := flatIndex_lt hi1 hj2
    omega
  have e3 : (2 * i + 1) * img.width + 2 * j < img.data.length := by
    rw [hlen]
    exact flatIndex_lt hi2 hj1
  have e4 : (2 * i + 1) * img.width + 2 * j + 1 < img.data.length := by
    rw [hlen]
    have := flatIndex_lt hi2 hj2
    omega
  rw [getD_of_const hc e1, getD_of_const hc e2, getD_of_const hc e3,
    getD_of_const hc e4]
  obtain ⟨a, b, d, e⟩ := c
  simp only [addVec4, divVec4Four, Prod.mk.injEq]
  refine ⟨by ring, by ring, by ring, by ring⟩

/-- Claim C7: `createTexture` on a 64x64 constant-color image yields
exactly four mipmap levels of dimensions 64/32/16/8 (and pixel counts
4096/1024/256/64), and every pixel of every level equals the color. -/
theorem createTexture_const_mipmaps (img : Image ℚ) (c : Vec4 ℚ)
    (hw : img.width = 64) (hh : img.height = 64)
    (hlen : img.data.length = 64 * 64) (hc : ∀ p ∈ img.data, p = c) :
    ((createTexture img).mipmaps.map (fun m => (m.width, m.height)) =
        [(64, 64), (32, 32), (16, 16), (8, 8)]) ∧
      ((createTexture img).mipmaps.map (fun m => m.data.length) =
        [4096, 1024, 256, 64]) ∧
      ∀ m ∈ (createTexture img).mipmaps, ∀ p ∈ m.data, p = c := by
  have hlen1 : img.data.length = img.width * img.height := by
    rw [hw, hh, hlen]
  have hc2 : ∀ p ∈ (minifyImage img).data, p = c :=
    minifyImage_const img c hlen1 hc
  have hlen2 : (minifyImage img).data.length =
      (minifyImage img).width * (minifyImage img).height := by
    simp [minifyImage_data_length, minifyImage_width, minifyImage_height]
  have hc3 : ∀ p ∈ (minifyImage (minifyImage img)).data, p = c :=
    minifyImage_const (minifyImage img) c hlen2 hc2
  have hlen3 : (minifyImage (minifyImage img)).data.length =
      (minifyImage (minifyImage img)).width *
        (minifyImage (minifyImage img)).height := by
    simp [minifyImage_data_length, minifyImage_width, minifyImage_height]
  have hc4 : ∀ p ∈ (minifyImage (minifyImage (minifyImage img))).data,
      p = c := minifyImage_const (minifyImage (minifyImage img)) c hlen3 hc3
  refine ⟨?_, ?_, ?_⟩
  · simp [createTexture, minifyImage_width, minifyImage_height, hw, hh]
  · simp [createTexture, minifyImage_data_length, minifyImage_width,
      minifyImage_height, hlen, hw, hh]
  · intro m hm
    simp only [createTexture, List.mem_cons, List.not_mem_nil,
      or_false] at hm
    rcases hm with rfl | rfl | rfl | rfl
    · exact hc
    · exact hc2
    · exact hc3
    · exact hc4

/-- Witness for claim C7 on the constant 64x64 image. -/
theorem createTexture_const_mipmaps_witness :
    (createTexture constImage64).mipmaps.map (fun m => (m.width, m.height)) =
      [(64, 64), (32, 32), (16, 16), (8, 8)] :=
  (createTexture_const_mipmaps constImage64 ((1 : ℚ), 2, 3, 4) rfl rfl
    (by show (List.replicate 4096 ((1 : ℚ), 2, 3, 4)).length = 64 * 64
        rw [List.length_replicate])
    (fun p hp => List.eq_of_mem_replicate
      (show p ∈ List.replicate 4096 ((1 : ℚ), 2, 3, 4) from hp))).1

/-- Claim C3: whenever the normalized directions of the two segments have a
2D cross product of magnitude at most `0.001`, `getIntersectionPoint`
returns no value — regardless of the result of `hasIntersection`, whose
branch is taken first but whose success cannot reach the `some` arm. -/
theorem getIntersectionPoint_nearParallel (l1 l2 : Line)
    (h : |cross2D (normalize (l1.stop - l1.start))
        (normalize (l2.stop - l2.start))| ≤ 1 / 1000) :
    getIntersectionPoint l1 l2 = none := by
  simp only [getIntersectionPoint]
  by_cases hI : hasIntersection l1 l2 = false
  · rw [if_pos hI]
  · rw [if_neg hI, if_neg (not_lt.mpr h)]

/-- Witness for claim C3 on two parallel horizontal unit segments. -/
theorem getIntersectionPoint_nearParallel_witness :
    getIntersectionPoint ⟨((0 : ℝ), 0), (1, 0)⟩ ⟨((0 : ℝ), 1), (1, 1)⟩ =
      none := by
  apply getIntersectionPoint_nearParallel
  norm_num [cross2D, normalize, Prod.mk_sub_mk]

/-- `writeFloorPixel` never touches the stencil or depth buffer, and it
leaves the screen buffer unchanged at every wall-occupied pixel. -/
theorem writeFloorPixel_effects (cam : Camera ℝ) (ft : Image ℝ) (d : ℝ)
    (i : ℕ) (c : Context) (j : ℕ) :
    (writeFloorPixel cam ft d i c j).stencilBuffer = c.stencilBuffer ∧
      (writeFloorPixel cam ft d i c j).depthBuffer = c.depthBuffer ∧
      ∀ p : ℕ, c.stencilBuffer p = 1 →
        (writeFloorPixel cam ft d i c j).screenBuffer p =
          c.screenBuffer p := by
  simp only [writeFloorPixel, setSceenBufferPixel]
  by_cases hguard :
      c.stencilBuffer ((i + c.height / 2) * c.width + j) = 1
  · rw [if_pos hguard]
    exact ⟨rfl, rfl, fun p _ => rfl⟩
  · rw [if_neg hguard]
    refine ⟨rfl, rfl, fun p hp => ?_⟩
    show update c.screenBuffer ((i + c.height / 2) * c.width + j) _ p = _
    unfold update
    rw [if_neg]
    intro hpe
    rw [hpe] at hp
    exact hguard hp

/-- Fold form of `writeFloorPixel_effects` over a list of columns. -/
theorem floorFold_effects (cam : Camera ℝ) (ft : Image ℝ) (d : ℝ) (i : ℕ)
    (l : List ℕ) (c : Context) :
    (List.foldl (writeFloorPixel cam ft d i) c l).stencilBuffer =
        c.stencilBuffer ∧
      (List.foldl (writeFloorPixel cam ft d i) c l).depthBuffer =
        c.depthBuffer ∧
      ∀ p : ℕ, c.stencilBuffer p = 1 →
        (List.foldl (writeFloorPixel cam ft d i) c l).screenBuffer p =
          c.screenBuffer p := by
  induction l generalizing c with
  | nil => exact ⟨rfl, rfl, fun p _ => rfl⟩
  | cons a t ih =>
    have hstep := writeFloorPixel_effects cam ft d i c a
    have hfold := ih (writeFloorPixel cam ft d i c a)
    rw [List.foldl_cons]
    refine ⟨hfold.1.trans hstep.1, hfold.2.1.trans hstep.2.1, fun p hp => ?_⟩
    have hp1 : (writeFloorPixel cam ft d i c a).stencilBuffer p = 1 := by
      rw [hstep.1]
      exact hp
    exact (hfold.2.2 p hp1).trans (hstep.2.2 p hp)

/-- One floor row never touches the stencil or depth buffer and leaves the
screen buffer unchanged at wall-occupied pixels. -/
theorem floorRow_effects (cam : Camera ℝ) (textures : List (Texture ℝ))
    (c : Context) (i : ℕ) :
    (floorRow cam textures c i).stencilBuffer = c.stencilBuffer ∧
      (floorRow cam textures c i).depthBuffer = c.depthBuffer ∧
      ∀ p : ℕ, c.stencilBuffer p = 1 →
        (floorRow cam textures c i).screenBuffer p = c.screenBuffer p := by
  simp only [floorRow]
  exact floorFold_effects _ _ _ _ _ _

/-- The whole floor/ceiling pass never touches the stencil or depth buffer
and leaves the screen buffer unchanged at wall-occupied pixels. -/
theorem renderFloorAndCeiling_effects (c : Context) (cam : Camera ℝ)
    (textures : List (Texture ℝ)) :
    (renderFloorAndCeiling c cam textures).stencilBuffer =
        c.stencilBuffer ∧
      (renderFloorAndCeiling c cam textures).depthBuffer = c.depthBuffer ∧
      ∀ p : ℕ, c.stencilBuffer p = 1 →
        (renderFloorAndCeiling c cam textures).screenBuffer p =
          c.screenBuffer p := by
  unfold renderFloorAndCeiling
  generalize List.range (c.height / 2) = l
  induction l generalizing c with
  | nil => exact ⟨rfl, rfl, fun p _ => rfl⟩
  | cons a t ih =>
    have hstep := floorRow_effects cam textures c a
    have hfold := ih (floorRow cam textures c a)
    rw [List.foldl_cons]
    refine ⟨hfold.1.trans hstep.1, hfold.2.1.trans hstep.2.1, fun p hp => ?_⟩
    have hp1 : (floorRow cam textures c a).stencilBuffer p = 1 := by
      rw [hstep.1]
      exact hp
    exact (hfold.2.2 p hp1).trans (hstep.2.2 p hp)

/-- Claim C9: every pixel whose stencil value is 1 when
`renderFloorAndCeiling` runs keeps its screen-buffer value through the
pass. -/
theorem renderFloorAndCeiling_skips_wall_pixels (ctx : Context)
    (cam : Camera ℝ) (textures : List (Texture ℝ)) (p : ℕ)
    (hp : ctx.stencilBuffer p = 1) :
    (renderFloorAndCeiling ctx cam textures).screenBuffer p =
      ctx.screenBuffer p :=
  (renderFloorAndCeiling_effects ctx cam textures).2.2 p hp

/-- Witness for claim C9 on the all-stencil context at pixel 3. -/
theorem renderFloorAndCeiling_skips_wall_pixels_witness :
    (renderFloorAndCeiling contextStencil cameraR []).screenBuffer 3 =
      contextStencil.screenBuffer 3 :=
  renderFloorAndCeiling_skips_wall_pixels contextStencil cameraR [] 3 rfl

/-- The camera-plane correction factor `dot(front, rayDirection)` is never
negative: `front` is orthogonal to the right vector, so the dot product is
`(front.x^2 + front.y^2) / length`, a quotient of nonnegatives. -/
theorem dot_front_rayDirection_nonneg (cam : Camera ℝ) (w h i : ℕ) :
    0 ≤ dot cam.front (rayDirection cam w h i) := by
  have key : ∀ x y t S : ℝ, 0 ≤ S →
      0 ≤ x * ((x - t * y) / S) + y * ((y - t * -x) / S) := by
    intro x y t S hS
    rw [← mul_div_assoc, ← mul_div_assoc, div_add_div_same,
      show x * (x - t * y) + y * (y - t * -x) = x ^ 2 + y ^ 2 from by ring]
    positivity
  simp only [rayDirection, normalize, glmLength, dot, Prod.smul_mk,
    smul_eq_mul, Prod.fst_sub, Prod.snd_sub]
  exact key _ _ _ _ (Real.sqrt_nonneg _)

/-- One `wallStep` keeps the tracked normalized distance inside `[0, 1]`:
candidates are `sqrt * dot / farPlane ≥ 0` and only replace the
accumulator when strictly smaller. -/
theorem wallStep_z_bounds (o f rd : Vec2 ℝ) (far : ℝ) (hfar : 0 < far)
    (hdot : 0 ≤ dot f rd) (acc : ColumnHit) (wl : Wall) (h0 : 0 ≤ acc.z)
    (h1 : acc.z ≤ 1) :
    0 ≤ (wallStep o f rd far acc wl).z ∧
      (wallStep o f rd far acc wl).z ≤ 1 := by
  simp only [wallStep]
  cases hI : getIntersectionPoint ⟨o, o + far • rd⟩ wl.line with
  | none => exact ⟨h0, h1⟩
  | some ip =>
    dsimp only
    have hnn : 0 ≤ distance o ip * dot f rd / far := by
      apply div_nonneg (mul_nonneg ?_ hdot) hfar.le
      simp only [distance, glmLength]
      exact Real.sqrt_nonneg _
    by_cases hlt : distance o ip * dot f rd / far < acc.z
    · rw [if_pos hlt]
      exact ⟨hnn, le_trans hlt.le h1⟩
    · rw [if_neg hlt]
      exact ⟨h0, h1⟩

/-- The per-column z-buffer value always lies in `[0, 1]`. -/
theorem columnHit_z_bounds (cam : Camera ℝ) (level : List Wall)
    (w h i : ℕ) (hfar : 0 < cam.farPlane) :
    0 ≤ (columnHit cam level w h i).z ∧
      (columnHit cam level w h i).z ≤ 1 := by
  unfold columnHit
  have hdot := dot_front_rayDirection_nonneg cam w h i
  suffices hgen : ∀ (l : List Wall) (acc : ColumnHit), 0 ≤ acc.z →
      acc.z ≤ 1 →
      0 ≤ (List.foldl
          (wallStep cam.position cam.front (rayDirection cam w h i)
            cam.farPlane) acc l).z ∧
        (List.foldl
          (wallStep cam.position cam.front (rayDirection cam w h i)
            cam.farPlane) acc l).z ≤ 1 by
    exact hgen level ⟨1, (0, 0, 0), 0⟩ (by norm_num) (by norm_num)
  intro l
  induction l with
  | nil => intro acc h0 h1; exact ⟨h0, h1⟩
  | cons a t ih =>
    intro acc h0 h1
    rw [List.foldl_cons]
    have hstep := wallStep_z_bounds cam.position cam.front
      (rayDirection cam w h i) cam.farPlane hfar hdot acc a h0 h1
    exact ih _ hstep.1 hstep.2

/-- One wall-pixel write changes the depth buffer at most to the column's
z value. -/
theorem writeWallPixel_depth (cam : Camera ℝ) (tex : Image ℝ)
    (hit : ColumnHit) (pd pph : ℝ) (x : ℕ) (c : Context) (j : ℤ) (p : ℕ) :
    (writeWallPixel cam tex hit pd pph x c j).depthBuffer p =
        c.depthBuffer p ∨
      (writeWallPixel cam tex hit pd pph x c j).depthBuffer p = hit.z := by
  simp only [writeWallPixel, setSceenBufferPixel, setStencilBufferPixel,
    setDepthBufferPixel]
  show update c.depthBuffer _ hit.z p = c.depthBuffer p ∨
    update c.depthBuffer _ hit.z p = hit.z
  unfold update
  by_cases hp : p = (((c.height / 2 : ℕ) : ℤ) - j).toNat * c.width + x
  · right
    rw [if_pos hp]
  · left
    rw [if_neg hp]

/-- Fold form of `writeWallPixel_depth` along the row span of a column. -/
theorem wallRowFold_depth (cam : Camera ℝ) (tex : Image ℝ)
    (hit : ColumnHit) (pd pph : ℝ) (x : ℕ) (l : List ℤ) (c : Context)
    (p : ℕ) :
    (List.foldl (writeWallPixel cam tex hit pd pph x) c l).depthBuffer p =
        c.depthBuffer p ∨
      (List.foldl (writeWallPixel cam tex hit pd pph x) c l).depthBuffer p =
        hit.z := by
  induction l generalizing c with
  | nil => left; rfl
  | cons a t ih =>
    rw [List.foldl_cons]
    rcases ih (writeWallPixel cam tex hit pd pph x c a) with hr | hr
    · rcases writeWallPixel_depth cam tex hit pd pph x c a p with hs | hs
      · left
        rw [hr, hs]
      · right
        rw [hr, hs]
    · right
      exact hr

/-- One wall column either leaves a depth cell unchanged or stores a value
in `[0, 1]`. -/
theorem renderWallColumn_depth (cam : Camera ℝ) (level : List Wall)
    (textures : List (Texture ℝ)) (c : Context) (i : ℕ)
    (hfar : 0 < cam.farPlane) (p : ℕ) :
    (renderWallColumn cam level textures c i).depthBuffer p =
        c.depthBuffer p ∨
      (0 ≤ (renderWallColumn cam level textures c i).depthBuffer p ∧
        (renderWallColumn cam level textures c i).depthBuffer p ≤ 1) := by
  simp only [renderWallColumn]
  by_cases hpd :
      (columnHit cam level c.width c.height i).z * cam.farPlane <
        cam.farPlane
  · rw [if_pos hpd]
    rcases wallRowFold_depth cam _ (columnHit cam level c.width c.height i)
        ((columnHit cam level c.width c.height i).z * cam.farPlane) _ _ _ c
        p with hr | hr
    · left
      exact hr
    · right
      rw [hr]
      exact columnHit_z_bounds cam level c.width c.height i hfar
  · rw [if_neg hpd]
    left
    rfl

/-- The wall pass either leaves a depth cell unchanged or stores a value in
`[0, 1]`. -/
theorem renderWalls_depth (ctx : Context) (cam : Camera ℝ)
    (level : List Wall) (textures : List (Texture ℝ))
    (hfar : 0 < cam.farPlane) (p : ℕ) :
    (renderWalls ctx cam level textures).depthBuffer p =
        ctx.depthBuffer p ∨
      (0 ≤ (renderWalls ctx cam level textures).depthBuffer p ∧
        (renderWalls ctx cam level textures).depthBuffer p ≤ 1) := by
  unfold renderWalls
  generalize List.range ctx.width = l
  induction l generalizing ctx with
  | nil => left; rfl
  | cons a t ih =>
    rw [List.foldl_cons]
    rcases ih (renderWallColumn cam level textures ctx a) with hr | hr
    · rcases renderWallColumn_depth cam level textures ctx a hfar p with
        hs | hs
      · left
        rw [hr, hs]
      · right
        rw [hr]
        exact hs
    · right
      exact hr

/-- A fold whose every step preserves the `[0, 1]` depth invariant
preserves it. -/
theorem foldl_depth_invariant {β : Type} (f : Context → β → Context)
    (hf : ∀ (c : Context) (b : β),
      (∀ p : ℕ, 0 ≤ c.depthBuffer p ∧ c.depthBuffer p ≤ 1) →
      ∀ p : ℕ, 0 ≤ (f c b).depthBuffer p ∧ (f c b).depthBuffer p ≤ 1)
    (l : List β) (c : Context)
    (hinv : ∀ p : ℕ, 0 ≤ c.depthBuffer p ∧ c.depthBuffer p ≤ 1) :
    ∀ p : ℕ, 0 ≤ (List.foldl f c l).depthBuffer p ∧
      (List.foldl f c l).depthBuffer p ≤ 1 := by
  induction l generalizing c with
  | nil => exact hinv
  | cons a t ih =>
    rw [List.foldl_cons]
    exact ih (f c a) (hf c a hinv)

/-- One sprite-pixel write preserves the `[0, 1]` depth invariant: it only
writes a nonnegative normalized distance that passed the strict depth
test against the current value. -/
theorem writeSpritePixel_depth_invariant (cam : Camera ℝ) (sprite : Sprite)
    (d sw sh : ℝ) (sl st : ℤ) (i : ℤ) (c : Context) (j : ℤ)
    (hd : 0 ≤ d / cam.farPlane)
    (hinv : ∀ p : ℕ, 0 ≤ c.depthBuffer p ∧ c.depthBuffer p ≤ 1) :
    ∀ p : ℕ,
      0 ≤ (writeSpritePixel cam sprite d sw sh sl st i c j).depthBuffer p ∧
        (writeSpritePixel cam sprite d sw sh sl st i c j).depthBuffer p ≤
          1 := by
  intro p
  simp only [writeSpritePixel, setSceenBufferPixel, setDepthBufferPixel]
  by_cases htest :
      d / cam.farPlane < c.depthBuffer ((i * (c.width : ℤ) + j).toNat)
  · rw [if_pos htest]
    by_cases hkey : sampleFromTexture (sprite.texture.mipmaps.getD 0 ⟨[], 0, 0⟩)
        (((j - sl : ℤ) : ℝ) / sw, -(((i - st : ℤ) : ℝ) / sh)) false =
        ((0 : ℤ), (255 : ℤ), (255 : ℤ), (255 : ℤ))
    · rw [if_pos hkey]
      exact hinv p
    · rw [if_neg hkey]
      show 0 ≤ update c.depthBuffer _ (d / cam.farPlane) p ∧
        update c.depthBuffer _ (d / cam.farPlane) p ≤ 1
      unfold update
      by_cases hp : p = i.toNat * c.width + j.toNat
      · rw [if_pos hp]
        exact ⟨hd, le_trans htest.le
          (hinv ((i * (c.width : ℤ) + j).toNat)).2⟩
      · rw [if_neg hp]
        exact hinv p
  · rw [if_neg htest]
    exact hinv p

/-- One sprite preserves the `[0, 1]` depth invariant. -/
theorem renderSprite_depth_invariant (cam : Camera ℝ)
    (hfar : 0 < cam.farPlane) (c : Context) (sprite : Sprite)
    (hinv : ∀ p : ℕ, 0 ≤ c.depthBuffer p ∧ c.depthBuffer p ≤ 1) :
    ∀ p : ℕ, 0 ≤ (renderSprite cam c sprite).depthBuffer p ∧
      (renderSprite cam c sprite).depthBuffer p ≤ 1 := by
  simp only [renderSprite]
  by_cases hcull : dot (sprite.position - cam.position) cam.front ≤ 0
  · rw [if_pos hcull]
    exact hinv
  · rw [if_neg hcull]
    have hd : 0 ≤ dot (sprite.position - cam.position) cam.front /
        cam.farPlane :=
      div_nonneg (le_of_lt (lt_of_not_le hcull)) hfar.le
    exact foldl_depth_invariant _
      (fun c2 i hi => foldl_depth_invariant _
        (fun c3 j hj =>
          writeSpritePixel_depth_invariant cam sprite _ _ _ _ _ i c3 j hd hj)
        _ c2 hi)
      _ c hinv

/-- The sprite pass preserves the `[0, 1]` depth invariant. -/
theorem renderSprites_depth_invariant (ctx : Context) (cam : Camera ℝ)
    (sprites : List Sprite) (hfar : 0 < cam.farPlane)
    (hinv : ∀ p : ℕ, 0 ≤ ctx.depthBuffer p ∧ ctx.depthBuffer p ≤ 1) :
    ∀ p : ℕ, 0 ≤ (renderSprites ctx cam sprites).depthBuffer p ∧
      (renderSprites ctx cam sprites).depthBuffer p ≤ 1 := by
  unfold renderSprites
  exact foldl_depth_invariant (renderSprite cam)
    (fun c b hc => renderSprite_depth_invariant cam hfar c b hc) sprites ctx
    hinv

/-- Claim C4: starting from a cleared frame (depth filled with 1.0), after
the wall, floor/ceiling and sprite passes every depth-buffer cell lies in
`[0, 1]`, and every cell left unchanged by all three passes still holds
exactly 1.0 when the background pass begins. -/
theorem depth_buffer_pass_invariant (ctx : Context) (cam : Camera ℝ)
    (level : List Wall) (textures : List (Texture ℝ))
    (sprites : List Sprite) (hfar : 0 < cam.farPlane) :
    (∀ p : ℕ,
        0 ≤ (renderSprites
            (renderFloorAndCeiling
              (renderWalls (clearContext ctx) cam level textures) cam
              textures) cam sprites).depthBuffer p ∧
          (renderSprites
            (renderFloorAndCeiling
              (renderWalls (clearContext ctx) cam level textures) cam
              textures) cam sprites).depthBuffer p ≤ 1) ∧
      ∀ p : ℕ,
        (renderWalls (clearContext ctx) cam level textures).depthBuffer p =
            (clearContext ctx).depthBuffer p →
        (renderFloorAndCeiling
            (renderWalls (clearContext ctx) cam level textures) cam
            textures).depthBuffer p =
          (renderWalls (clearContext ctx) cam level textures).depthBuffer
            p →
        (renderSprites
            (renderFloorAndCeiling
              (renderWalls (clearContext ctx) cam level textures) cam
              textures) cam sprites).depthBuffer p =
          (renderFloorAndCeiling
            (renderWalls (clearContext ctx) cam level textures) cam
            textures).depthBuffer p →
        (renderSprites
            (renderFloorAndCeiling
              (renderWalls (clearContext ctx) cam level textures) cam
              textures) cam sprites).depthBuffer p = 1 := by
  have hclear : ∀ p : ℕ, (clearContext ctx).depthBuffer p = 1 :=
    fun p => rfl
  have hwalls : ∀ p : ℕ,
      0 ≤ (renderWalls (clearContext ctx) cam level textures).depthBuffer
          p ∧
        (renderWalls (clearContext ctx) cam level
          textures).depthBuffer p ≤ 1 := by
    intro p
    rcases renderWalls_depth (clearContext ctx) cam level textures hfar p
      with hu | hb
    · rw [hu, hclear p]
      norm_num
    · exact hb
  have hfloor := renderFloorAndCeiling_effects
    (renderWalls (clearContext ctx) cam level textures) cam textures
  have hfloorinv : ∀ p : ℕ,
      0 ≤ (renderFloorAndCeiling
          (renderWalls (clearContext ctx) cam level textures) cam
          textures).depthBuffer p ∧
        (renderFloorAndCeiling
          (renderWalls (clearContext ctx) cam level textures) cam
          textures).depthBuffer p ≤ 1 := by
    intro p
    rw [hfloor.2.1]
    exact hwalls p
  refine ⟨renderSprites_depth_invariant _ cam sprites hfar hfloorinv, ?_⟩
  intro p e1 e2 e3
  rw [e3, e2, e1, hclear p]

/-- Witness for claim C4 on the 4x4 context with the default camera, the
empty wall list, no textures and no sprites, at pixel 0. -/
theorem depth_buffer_pass_invariant_witness :
    0 ≤ (renderSprites
        (renderFloorAndCeiling
          (renderWalls (clearContext contextR) cameraR [] []) cameraR [])
        cameraR []).depthBuffer 0 ∧
      (renderSprites
        (renderFloorAndCeiling
          (renderWalls (clearContext contextR) cameraR [] []) cameraR [])
        cameraR []).depthBuffer 0 ≤ 1 :=
  (depth_buffer_pass_invariant contextR cameraR [] [] []
    (by norm_num [cameraR])).1 0

/-- `orientation` evaluates to `ClockWise` when the sign value is
nonnegative. -/
theorem orientation_cw (p q r : Vec2 ℝ)
    (h : 0 ≤ (q.2 - p.2) * (r.1 - q.1) - (q.1 - p.1) * (r.2 - q.2)) :
    orientation p q r = Orientation.ClockWise := by
  simp only [orientation]
  rw [if_pos h]

/-- `orientation` evaluates to `CounterClockWise` when the sign value is
negative. -/
theorem orientation_ccw (p q r : Vec2 ℝ)
    (h : (q.2 - p.2) * (r.1 - q.1) - (q.1 - p.1) * (r.2 - q.2) < 0) :
    orientation p q r = Orientation.CounterClockWise := by
  simp only [orientation]
  rw [if_neg (not_le.mpr h)]

/-- `normalize` of a vertical vector of positive length. -/
theorem normalize_vertical (a : ℝ) (ha : 0 < a) :
    normalize ((0 : ℝ), a) = (0, 1) := by
  unfold normalize glmLength
  rw [show dot ((0 : ℝ), a) ((0 : ℝ), a) = a * a from by simp [dot],
    Real.sqrt_mul_self ha.le]
  simp [ha.ne']

/-- `normalize` of a horizontal vector of positive length. -/
theorem normalize_horizontal (a : ℝ) (ha : 0 < a) :
    normalize ((a : ℝ), 0) = (1, 0) := by
  unfold normalize glmLength
  rw [show dot ((a : ℝ), 0) ((a : ℝ), 0) = a * a from by simp [dot],
    Real.sqrt_mul_self ha.le]
  simp [ha.ne']

/-- The intersection of the concrete forward ray with the concrete
perpendicular wall: `getIntersectionPoint` returns the point `(0, 5)`. -/
theorem getIntersectionPoint_concrete :
    getIntersectionPoint ⟨((0 : ℝ), 0), ((0 : ℝ), 100)⟩
      ⟨((-1 : ℝ), 5), ((1 : ℝ), 5)⟩ = some ((0 : ℝ), 5) := by
  have h1 : orientation ((0 : ℝ), 0) ((0 : ℝ), 100) ((-1 : ℝ), 5) =
      Orientation.CounterClockWise := by
    apply orientation_ccw
    norm_num
  have h2 : orientation ((0 : ℝ), 0) ((0 : ℝ), 100) ((1 : ℝ), 5) =
      Orientation.ClockWise := by
    apply orientation_cw
    norm_num
  have h3 : orientation ((-1 : ℝ), 5) ((1 : ℝ), 5) ((0 : ℝ), 0) =
      Orientation.ClockWise := by
    apply orientation_cw
    norm_num
  have h4 : orientation ((-1 : ℝ), 5) ((1 : ℝ), 5) ((0 : ℝ), 100) =
      Orientation.CounterClockWise := by
    apply orientation_ccw
    norm_num
  have hHI : hasIntersection ⟨((0 : ℝ), 0), ((0 : ℝ), 100)⟩
      ⟨((-1 : ℝ), 5), ((1 : ℝ), 5)⟩ = true := by
    unfold hasIntersection
    dsimp only
    rw [h1, h2, h3, h4]
    rfl
  simp only [getIntersectionPoint]
  rw [hHI, if_neg (by simp : ¬(true = false))]
  have s1 : (((0 : ℝ), 100) - ((0 : ℝ), 0) : Vec2 ℝ) = ((0 : ℝ), 100) := by
    simp [Prod.mk_sub_mk]
  have s2 : (((1 : ℝ), 5) - ((-1 : ℝ), 5) : Vec2 ℝ) = ((2 : ℝ), 0) := by
    simp [Prod.mk_sub_mk]
    norm_num
  rw [s1, s2, normalize_vertical 100 (by norm_num),
    normalize_horizontal 2 (by norm_num)]
  have hcross : cross2D ((0 : ℝ), 1) ((1 : ℝ), 0) = -1 := by
    simp [cross2D]
  rw [hcross, if_pos (by norm_num)]
  have hvdiv : vdiv ((1 : ℝ), 0) (-1) = ((-1 : ℝ), 0) := by
    simp [vdiv]
  have sqp : (((-1 : ℝ), 5) - ((0 : ℝ), 0) : Vec2 ℝ) = ((-1 : ℝ), 5) := by
    simp [Prod.mk_sub_mk]
  rw [hvdiv, sqp,
    show cross2D ((-1 : ℝ), 5) ((-1 : ℝ), 0) = 5 from by
      simp [cross2D]]
  norm_num [Prod.mk_add_mk, Prod.smul_mk]

/-- The column ray of the middle column (`i = width / 2`) of the concrete
4x4 frame is exactly the camera's front vector: the column offset is 0 and
the front vector is unit. -/
theorem rayDirection_middle_concrete :
    rayDirection cameraR 4 4 2 = cameraR.front := by
  simp only [rayDirection, cameraR]
  norm_num
  exact normalize_vertical 1 (by norm_num)

/-- The concrete eye distance of the intersection point: `sqrt 25 = 5`. -/
theorem distance_concrete : distance ((0 : ℝ), 0) ((0 : ℝ), 5) = 5 := by
  unfold distance glmLength
  rw [show (((0 : ℝ), 5) - ((0 : ℝ), 0) : Vec2 ℝ) = ((0 : ℝ), 5) from by
      simp [Prod.mk_sub_mk],
    show dot ((0 : ℝ), 5) ((0 : ℝ), 5) = 5 * 5 from by simp [dot]]
  exact Real.sqrt_mul_self (by norm_num)

/-- Claim C1 counterexample: the forward-axis column (ray equals front) of
the concrete scene hits the perpendicular wall at Euclidean distance 5,
but the stored `normalizedCameraPlaneDistance` is `5 / farPlane = 1/20`,
not 5: the source divides by `camera.farPlane`. -/
theorem normalizedCameraPlaneDistance_not_euclidean :
    rayDirection cameraR 4 4 2 = cameraR.front ∧
      (columnHit cameraR [wallR] 4 4 2).z = 1 / 20 ∧
      ((1 : ℝ) / 20) ≠ 5 := by
  refine ⟨rayDirection_middle_concrete, ?_, by norm_num⟩
  unfold columnHit
  rw [rayDirection_middle_concrete, List.foldl_cons, List.foldl_nil]
  simp only [wallStep, cameraR, wallR]
  rw [show (((0 : ℝ), (0 : ℝ)) + (100 : ℝ) • ((0 : ℝ), (1 : ℝ)) : Vec2 ℝ) =
      ((0 : ℝ), 100) from by norm_num [Prod.mk_add_mk, Prod.smul_mk]]
  rw [getIntersectionPoint_concrete]
  dsimp only
  rw [distance_concrete,
    show dot ((0 : ℝ), 1) ((0 : ℝ), 1) = 1 from by simp [dot]]
  norm_num

/-- A ray cast straight along a direction `f` of unit length against a
wall perpendicular to `f`, crossing it at parameter distance `D` before
the far plane: `getIntersectionPoint` returns exactly the crossing point
`c + D • f`. -/
theorem getIntersectionPoint_perpendicular (c f : Vec2 ℝ) (far D L M : ℝ)
    (hf : dot f f = 1) (hfar : 0 < far) (hD : 0 < D) (hDfar : D < far)
    (hL : 0 < L) (hM : 0 < M) :
    getIntersectionPoint ⟨c, c + far • f⟩
      ⟨c + D • f - L • rightVec f, c + D • f + M • rightVec f⟩ =
      some (c + D • f) := by
  obtain ⟨c1, c2⟩ := c
  obtain ⟨f1, f2⟩ := f
  simp only [dot] at hf
  have hLM : (0 : ℝ) < L + M := by linarith
  have hfarD : (0 : ℝ) < far - D := by linarith
  have el1 : ((c1, c2) + far • (f1, f2) : Vec2 ℝ) =
      (c1 + far * f1, c2 + far * f2) := by
    simp only [Prod.smul_mk, smul_eq_mul, Prod.mk_add_mk]
  have ea : ((c1, c2) + D • (f1, f2) - L • rightVec (f1, f2) : Vec2 ℝ) =
      (c1 + D * f1 - L * f2, c2 + D * f2 + L * f1) := by
    simp only [rightVec, Prod.smul_mk, smul_eq_mul, Prod.mk_add_mk,
      Prod.mk_sub_mk, Prod.mk.injEq]
    refine ⟨by ring, by ring⟩
  have eb : ((c1, c2) + D • (f1, f2) + M • rightVec (f1, f2) : Vec2 ℝ) =
      (c1 + D * f1 + M * f2, c2 + D * f2 - M * f1) := by
    simp only [rightVec, Prod.smul_mk, smul_eq_mul, Prod.mk_add_mk,
      Prod.mk.injEq]
    refine ⟨by ring, by ring⟩
  rw [el1, ea, eb]
  have h1 : orientation (c1, c2) (c1 + far * f1, c2 + far * f2)
      (c1 + D * f1 - L * f2, c2 + D * f2 + L * f1) =
      Orientation.CounterClockWise := by
    apply orientation_ccw
    dsimp only
    nlinarith [mul_pos hfar hL, hf]
  have h2 : orientation (c1, c2) (c1 + far * f1, c2 + far * f2)
      (c1 + D * f1 + M * f2, c2 + D * f2 - M * f1) =
      Orientation.ClockWise := by
    apply orientation_cw
    dsimp only
    nlinarith [mul_pos hfar hM, hf]
  have h3 : orientation (c1 + D * f1 - L * f2, c2 + D * f2 + L * f1)
      (c1 + D * f1 + M * f2, c2 + D * f2 - M * f1) (c1, c2) =
      Orientation.ClockWise := by
    apply orientation_cw
    dsimp only
    nlinarith [mul_pos hLM hD, hf]
  have h4 : orientation (c1 + D * f1 - L * f2, c2 + D * f2 + L * f1)
      (c1 + D * f1 + M * f2, c2 + D * f2 - M * f1)
      (c1 + far * f1, c2 + far * f2) = Orientation.CounterClockWise := by
    apply orientation_ccw
    dsimp only
    nlinarith [mul_pos hLM hfarD, hf]
  have hHI : hasIntersection ⟨(c1, c2), (c1 + far * f1, c2 + far * f2)⟩
      ⟨(c1 + D * f1 - L * f2, c2 + D * f2 + L * f1),
        (c1 + D * f1 + M * f2, c2 + D * f2 - M * f1)⟩ = true := by
    unfold hasIntersection
    dsimp only
    rw [h1, h2, h3, h4]
    rfl
  simp only [getIntersectionPoint]
  rw [hHI, if_neg (by simp : ¬(true = false))]
  have eu : ((c1 + far * f1, c2 + far * f2) - (c1, c2) : Vec2 ℝ) =
      (far * f1, far * f2) := by
    simp only [Prod.mk_sub_mk, Prod.mk.injEq]
    refine ⟨by ring, by ring⟩
  have ev : ((c1 + D * f1 + M * f2, c2 + D * f2 - M * f1) -
      (c1 + D * f1 - L * f2, c2 + D * f2 + L * f1) : Vec2 ℝ) =
      ((L + M) * f2, -((L + M) * f1)) := by
    simp only [Prod.mk_sub_mk, Prod.mk.injEq]
    refine ⟨by ring, by ring⟩
  rw [eu, ev]
  have hnu : normalize (far * f1, far * f2) = (f1, f2) := by
    unfold normalize glmLength
    rw [show dot (far * f1, far * f2) (far * f1, far * f2) =
        far * far * (f1 * f1 + f2 * f2) from by
          simp only [dot]
          ring,
      hf, mul_one, Real.sqrt_mul_self hfar.le]
    dsimp only
    rw [Prod.mk.injEq]
    exact ⟨mul_div_cancel_left₀ f1 hfar.ne',
      mul_div_cancel_left₀ f2 hfar.ne'⟩
  have hnv : normalize ((L + M) * f2, -((L + M) * f1)) = (f2, -f1) := by
    unfold normalize glmLength
    rw [show dot ((L + M) * f2, -((L + M) * f1))
        ((L + M) * f2, -((L + M) * f1)) =
        (L + M) * (L + M) * (f1 * f1 + f2 * f2) from by
          simp only [dot]
          ring,
      hf, mul_one, Real.sqrt_mul_self hLM.le]
    dsimp only
    rw [Prod.mk.injEq]
    constructor
    · exact mul_div_cancel_left₀ f2 hLM.ne'
    · rw [neg_div, mul_div_cancel_left₀ f1 hLM.ne']
  rw [hnu, hnv]
  have hcross : cross2D (f1, f2) (f2, -f1) = -1 := by
    unfold cross2D
    dsimp only
    rw [show f1 * -f1 - f2 * f2 = -(f1 * f1 + f2 * f2) from by ring, hf]
  rw [hcross, if_pos (by norm_num : (1 : ℝ) / 1000 < |(-1 : ℝ)|)]
  have hqp : ((c1 + D * f1 - L * f2, c2 + D * f2 + L * f1) - (c1, c2) :
      Vec2 ℝ) = (D * f1 - L * f2, D * f2 + L * f1) := by
    simp only [Prod.mk_sub_mk, Prod.mk.injEq]
    refine ⟨by ring, by ring⟩
  have hvd : vdiv (f2, -f1) (-1) = (-f2, f1) := by
    unfold vdiv
    dsimp only
    rw [Prod.mk.injEq]
    constructor
    · rw [div_neg, div_one]
    · rw [div_neg, div_one, neg_neg]
  rw [hqp, hvd,
    show cross2D (D * f1 - L * f2, D * f2 + L * f1) (-f2, f1) = D from by
      unfold cross2D
      dsimp only
      rw [show (D * f1 - L * f2) * f1 - (D * f2 + L * f1) * -f2 =
          D * (f1 * f1 + f2 * f2) from by ring, hf, mul_one]]

/-- Claim C1 (amended): when the column's ray direction equals the
camera's (unit) front vector and the single wall of the level is
perpendicular to it, straddling the forward axis at Euclidean distance
`D` with `0 < D < farPlane`, the wall is selected for the column and the
computed `normalizedCameraPlaneDistance` equals `D / farPlane` — the
source normalizes the camera-plane distance by the far plane, so it is
`D / farPlane` rather than the claimed raw `D`. -/
theorem wall_straight_ahead_normalized_distance (cam : Camera ℝ)
    (D L M : ℝ) (w h i : ℕ) (wall : Wall)
    (hfront : dot cam.front cam.front = 1) (hfar : 0 < cam.farPlane)
    (hD : 0 < D) (hDfar : D < cam.farPlane) (hL : 0 < L) (hM : 0 < M)
    (hray : rayDirection cam w h i = cam.front)
    (hwall : wall.line =
      ⟨cam.position + D • cam.front - L • rightVec cam.front,
        cam.position + D • cam.front + M • rightVec cam.front⟩) :
    (columnHit cam [wall] w h i).z = D / cam.farPlane ∧
      (columnHit cam [wall] w h i).color = castColorToVec3 wall.color := by
  unfold columnHit
  rw [hray, List.foldl_cons, List.foldl_nil]
  simp only [wallStep]
  rw [hwall,
    getIntersectionPoint_perpendicular cam.position cam.front cam.farPlane
      D L M hfront hfar hD hDfar hL hM]
  dsimp only
  have hdist : distance cam.position (cam.position + D • cam.front) = D := by
    unfold distance glmLength
    rw [add_sub_cancel_left,
      show dot (D • cam.front) (D • cam.front) =
        D * D * dot cam.front cam.front from by
          simp only [dot, Prod.smul_fst, Prod.smul_snd, smul_eq_mul]
          ring,
      hfront, mul_one, Real.sqrt_mul_self hD.le]
  rw [hdist, hfront, mul_one]
  rw [if_pos ((div_lt_one hfar).mpr hDfar)]
  exact ⟨rfl, rfl⟩

/-- Witness for the amended claim C1 on the concrete scene: camera at the
origin facing `(0, 1)` with far plane 100, wall perpendicular at distance
5, middle column of a 4x4 frame. -/
theorem wall_straight_ahead_normalized_distance_witness :
    (columnHit cameraR [wallR] 4 4 2).z = 5 / cameraR.farPlane ∧
      (columnHit cameraR [wallR] 4 4 2).color =
        castColorToVec3 wallR.color := by
  apply wall_straight_ahead_normalized_distance cameraR 5 1 1 4 4 2 wallR
  · norm_num [dot, cameraR]
  · norm_num [cameraR]
  · norm_num
  · norm_num [cameraR]
  · norm_num
  · norm_num
  · exact rayDirection_middle_concrete
  · norm_num [cameraR, wallR, rightVec, Prod.smul_mk, Prod.mk_add_mk,
      Prod.mk_sub_mk]

end RayCasting
